import Mathlib

/-!
Verification of the arm_gemm uint8 kernel-selection dispatcher
(`src/core/NEON/kernels/arm_gemm/gemm_uint8.cpp`) and of the interleaved
blocked GEMM engine it instantiates.  The dispatcher is embedded directly
from the source; the `GemmInterleaved` engine body is not part of the
visible sources, so its behaviour (tiling, packing, thread partitioning,
wrapping accumulation) is modelled from the specification's description of
its contract.
-/

namespace ArmGemm

/-- The capability probe: the only field the dispatcher consults is the
dot-product instruction predicate (`CPUInfo::has_dotprod()` in the source). -/
structure CPUInfo where
  dotprod : Bool
deriving DecidableEq

/-- Embeds `ci.has_dotprod()`. -/
def CPUInfo.has_dotprod (ci : CPUInfo) : Bool := ci.dotprod

/-- The two kernel variants the uint8 dispatcher can instantiate
(`a64_gemm_u8_12x8` and `a64_gemm_u8_4x4` in the source). -/
inductive KernelVariant where
  | gemm_u8_12x8
  | gemm_u8_4x4
deriving DecidableEq

/-- Modelled from the spec: tile width constant `out_width` of each kernel
variant (the kernel headers are not among the visible sources; the spec gives
the 12x8 and 4x4 tile shapes). -/
def out_width : KernelVariant → Nat
  | .gemm_u8_12x8 => 12
  | .gemm_u8_4x4 => 4

/-- Modelled from the spec: tile height constant `out_height` of each kernel
variant. -/
def out_height : KernelVariant → Nat
  | .gemm_u8_12x8 => 8
  | .gemm_u8_4x4 => 4

/-- Modelled from the spec: whether a kernel variant needs the dot-product
extension; the baseline 4x4 variant must run on every supported CPU. -/
def requiresDotprod : KernelVariant → Bool
  | .gemm_u8_12x8 => true
  | .gemm_u8_4x4 => false

/-- A constructed `GemmInterleaved` engine handle: the selected kernel
variant together with the construction arguments the dispatcher forwarded
(`&ci, M, N, K, nbatches, nmulti, trA, trB, alpha, beta, maxthreads,
pretransposed_hint`).  The C++ `int maxthreads` is modelled as a `Nat`
thread count. -/
structure GemmInterleaved where
  kernel : KernelVariant
  ci : CPUInfo
  M : Nat
  N : Nat
  K : Nat
  nbatches : Nat
  nmulti : Nat
  trA : Bool
  trB : Bool
  alpha : Nat
  beta : Nat
  maxthreads : Nat
  pretransposed_hint : Bool
deriving DecidableEq

/-- Embeds the dispatcher `gemm<uint8_t, uint32_t>` from
`gemm_uint8.cpp`: if the probe reports dot-product support return a
`GemmInterleaved<gemm_u8_12x8, ...>` handle, otherwise a
`GemmInterleaved<gemm_u8_4x4, ...>` handle, forwarding every argument.
The `UniqueGemmCommon` owning pointer is modelled as `Option`
(`some` = non-null). -/
def gemm (ci : CPUInfo) (M N K nbatches nmulti : Nat) (trA trB : Bool)
    (alpha beta : Nat) (maxthreads : Nat) (pretransposed_hint : Bool) :
    Option GemmInterleaved :=
  if ci.has_dotprod then
    some { kernel := KernelVariant.gemm_u8_12x8, ci := ci, M := M, N := N, K := K,
           nbatches := nbatches, nmulti := nmulti, trA := trA, trB := trB,
           alpha := alpha, beta := beta, maxthreads := maxthreads,
           pretransposed_hint := pretransposed_hint }
  else
    some { kernel := KernelVariant.gemm_u8_4x4, ci := ci, M := M, N := N, K := K,
           nbatches := nbatches, nmulti := nmulti, trA := trA, trB := trB,
           alpha := alpha, beta := beta, maxthreads := maxthreads,
           pretransposed_hint := pretransposed_hint }

/-- Construction-time error taxonomy of the engine, from the spec's error
design. -/
inductive ConfigError where
  | zeroDimension
  | zeroThreadCeiling
deriving DecidableEq

/-- Modelled from the spec: `GemmInterleaved` construction validation (the
engine constructor body is not among the visible sources).  Construction
fails with a configuration error if any of M, N, K, nbatches, nmulti is
zero or the thread ceiling is zero, and otherwise returns the engine
handle. -/
def constructEngine (kv : KernelVariant) (ci : CPUInfo) (M N K nbatches nmulti : Nat)
    (trA trB : Bool) (alpha beta : Nat) (maxthreads : Nat) (pretransposed_hint : Bool) :
    Except ConfigError GemmInterleaved :=
  if M = 0 ∨ N = 0 ∨ K = 0 ∨ nbatches = 0 ∨ nmulti = 0 then
    Except.error ConfigError.zeroDimension
  else if maxthreads = 0 then
    Except.error ConfigError.zeroThreadCeiling
  else
    Except.ok { kernel := kv, ci := ci, M := M, N := N, K := K,
                nbatches := nbatches, nmulti := nmulti, trA := trA, trB := trB,
                alpha := alpha, beta := beta, maxthreads := maxthreads,
                pretransposed_hint := pretransposed_hint }

/-! ### Arithmetic helpers for tiling and mixed-radix work-unit indexing -/

/-- Rounding-up division, as used for the number of M-tiles and N-tiles. -/
def ceilDiv (a d : Nat) : Nat := (a + d - 1) / d

theorem le_ceilDiv_mul (a d : Nat) (hd : 0 < d) : a ≤ ceilDiv a d * d := by
  unfold ceilDiv
  rw [Nat.mul_comm]
  have h2 : (a + d - 1) % d < d := Nat.mod_lt _ hd
  have key : ∀ X r : Nat, r < d → X + r = a + d - 1 → a ≤ X := by
    intro X r hr hX
    omega
  exact key _ _ h2 (Nat.div_add_mod (a + d - 1) d)

theorem div_mul_add_eq (X r D : Nat) (hr : r < D) : (X * D + r) / D = X := by
  have hD : 0 < D := Nat.lt_of_le_of_lt (Nat.zero_le _) hr
  rw [Nat.mul_comm X D, Nat.mul_add_div hD, Nat.div_eq_of_lt hr, Nat.add_zero]

theorem mod_mul_add_eq (X r D : Nat) (hr : r < D) : (X * D + r) % D = r := by
  rw [Nat.mul_comm X D, Nat.mul_add_mod, Nat.mod_eq_of_lt hr]

theorem mulRadix_lt (a c A C : Nat) (ha : a < A) (hc : c < C) : a * C + c < A * C :=
  calc a * C + c < a * C + C := Nat.add_lt_add_left hc _
    _ = (a + 1) * C := (Nat.succ_mul a C).symm
    _ ≤ A * C := Nat.mul_le_mul_right C ha

theorem lt_div_succ_mul (a d : Nat) (hd : 0 < d) : a < (a / d + 1) * d := by
  have h1 := Nat.div_add_mod a d
  have h2 : a % d < d := Nat.mod_lt _ hd
  calc a = d * (a / d) + a % d := h1.symm
    _ < d * (a / d) + d := Nat.add_lt_add_left h2 _
    _ = (a / d + 1) * d := by ring

theorem sub_lt_of_between (x s d : Nat) (h1 : s ≤ x) (h2 : x < s + d) : x - s < d := by
  omega

/-- Flattened work-unit index for (multi, batch, M-tile, N-tile). -/
def encode (nb Mt Nt m b mt nt : Nat) : Nat := ((m * nb + b) * Mt + mt) * Nt + nt

/-- N-tile component of a flattened work-unit index. -/
def uNtile (Nt u : Nat) : Nat := u % Nt

/-- M-tile component of a flattened work-unit index. -/
def uMtile (Mt Nt u : Nat) : Nat := u / Nt % Mt

/-- Batch component of a flattened work-unit index. -/
def uBatch (nb Mt Nt u : Nat) : Nat := u / Nt / Mt % nb

/-- Multi component of a flattened work-unit index. -/
def uMulti (nb Mt Nt u : Nat) : Nat := u / Nt / Mt / nb

theorem uNtile_encode (nb Mt Nt m b mt nt : Nat) (hnt : nt < Nt) :
    uNtile Nt (encode nb Mt Nt m b mt nt) = nt :=
  mod_mul_add_eq _ _ _ hnt

theorem encode_div_Nt (nb Mt Nt m b mt nt : Nat) (hnt : nt < Nt) :
    encode nb Mt Nt m b mt nt / Nt = (m * nb + b) * Mt + mt :=
  div_mul_add_eq _ _ _ hnt

theorem uMtile_encode (nb Mt Nt m b mt nt : Nat) (hmt : mt < Mt) (hnt : nt < Nt) :
    uMtile Mt Nt (encode nb Mt Nt m b mt nt) = mt := by
  unfold uMtile
  rw [encode_div_Nt nb Mt Nt m b mt nt hnt, mod_mul_add_eq _ _ _ hmt]

theorem uBatch_encode (nb Mt Nt m b mt nt : Nat) (hb : b < nb) (hmt : mt < Mt)
    (hnt : nt < Nt) : uBatch nb Mt Nt (encode nb Mt Nt m b mt nt) = b := by
  unfold uBatch
  rw [encode_div_Nt nb Mt Nt m b mt nt hnt, div_mul_add_eq _ _ _ hmt,
    mod_mul_add_eq _ _ _ hb]

theorem uMulti_encode (nb Mt Nt m b mt nt : Nat) (hb : b < nb) (hmt : mt < Mt)
    (hnt : nt < Nt) : uMulti nb Mt Nt (encode nb Mt Nt m b mt nt) = m := by
  unfold uMulti
  rw [encode_div_Nt nb Mt Nt m b mt nt hnt, div_mul_add_eq _ _ _ hmt,
    div_mul_add_eq _ _ _ hb]

theorem encode_decode (nb Mt Nt u : Nat) :
    encode nb Mt Nt (uMulti nb Mt Nt u) (uBatch nb Mt Nt u) (uMtile Mt Nt u)
      (uNtile Nt u) = u := by
  unfold encode uMulti uBatch uMtile uNtile
  rw [Nat.div_add_mod' (u / Nt / Mt) nb, Nat.div_add_mod' (u / Nt) Mt,
    Nat.div_add_mod' u Nt]

theorem encode_lt (nm nb Mt Nt m b mt nt : Nat) (hm : m < nm) (hb : b < nb)
    (hmt : mt < Mt) (hnt : nt < Nt) :
    encode nb Mt Nt m b mt nt < nm * nb * Mt * Nt := by
  unfold encode
  exact mulRadix_lt _ _ _ _ (mulRadix_lt _ _ _ _ (mulRadix_lt _ _ _ _ hm hb) hmt) hnt

/-! ### Static thread partitioning of the flattened work space

Modelled from the spec: the linear sequence of `W` work units is divided as
evenly as possible across `T` threads by a static contiguous range split,
with remainder units given to the earliest-indexed threads. -/

/-- First work unit of thread `t`'s contiguous range. -/
def threadStart (W T t : Nat) : Nat := t * (W / T) + min t (W % T)

/-- Number of work units assigned to thread `t`. -/
def threadLen (W T t : Nat) : Nat := W / T + if t < W % T then 1 else 0

/-- The contiguous work-unit range of thread `t`. -/
def threadUnits (W T t : Nat) : List Nat :=
  (List.range (threadLen W T t)).map (fun x => threadStart W T t + x)

theorem start_succ_aux (q r t : Nat) :
    (t + 1) * q + min (t + 1) r = (t * q + min t r) + (q + if t < r then 1 else 0) := by
  rw [Nat.succ_mul]
  rcases Nat.lt_or_ge t r with h | h
  · rw [if_pos h, Nat.min_eq_left (Nat.le_of_lt h), Nat.min_eq_left h]
    simp only [Nat.succ_eq_add_one]
    ring
  · rw [if_neg (Nat.not_lt.mpr h), Nat.min_eq_right h,
      Nat.min_eq_right (Nat.le_trans h (Nat.le_succ t))]
    ring

theorem threadStart_succ (W T t : Nat) :
    threadStart W T (t + 1) = threadStart W T t + threadLen W T t := by
  unfold threadStart threadLen
  exact start_succ_aux (W / T) (W % T) t

theorem threadStart_zero (W T : Nat) : threadStart W T 0 = 0 := by
  simp [threadStart]

theorem threadStart_last (W T : Nat) (hT : 0 < T) : threadStart W T T = W := by
  unfold threadStart
  rw [Nat.min_eq_right (Nat.le_of_lt (Nat.mod_lt _ hT))]
  exact Nat.div_add_mod W T

theorem threadStart_mono (W T : Nat) : Monotone (threadStart W T) :=
  monotone_nat_of_le_succ (fun t => by
    rw [threadStart_succ]
    exact Nat.le_add_right _ _)

theorem mem_threadUnits (W T t u : Nat) :
    u ∈ threadUnits W T t ↔
      threadStart W T t ≤ u ∧ u < threadStart W T t + threadLen W T t := by
  unfold threadUnits
  simp only [List.mem_map, List.mem_range]
  constructor
  · rintro ⟨x, hx, rfl⟩
    omega
  · rintro ⟨h1, h2⟩
    exact ⟨u - threadStart W T t, by omega, by omega⟩

theorem mem_threadUnits_succ (W T t u : Nat) :
    u ∈ threadUnits W T t ↔
      threadStart W T t ≤ u ∧ u < threadStart W T (t + 1) := by
  rw [mem_threadUnits, threadStart_succ]

/-- Every work unit below a partial prefix boundary belongs to some earlier
thread. -/
theorem exists_thread_of_lt_start (W T : Nat) :
    ∀ n u, u < threadStart W T n → ∃ t, t < n ∧ u ∈ threadUnits W T t := by
  intro n
  induction n with
  | zero =>
    intro u hu
    rw [threadStart_zero] at hu
    exact absurd hu (Nat.not_lt_zero u)
  | succ n ih =>
    intro u hu
    rcases Nat.lt_or_ge u (threadStart W T n) with h | h
    · obtain ⟨t, ht, hmem⟩ := ih u h
      exact ⟨t, Nat.lt_trans ht (Nat.lt_succ_self n), hmem⟩
    · exact ⟨n, Nat.lt_succ_self n, (mem_threadUnits_succ W T n u).mpr ⟨h, hu⟩⟩

theorem thread_of_mem_unique (W T t1 t2 u : Nat)
    (h1 : u ∈ threadUnits W T t1) (h2 : u ∈ threadUnits W T t2) : t1 = t2 := by
  rcases Nat.lt_trichotomy t1 t2 with h | h | h
  · exfalso
    rw [mem_threadUnits_succ] at h1 h2
    have := threadStart_mono W T (show t1 + 1 ≤ t2 from h)
    omega
  · exact h
  · exfalso
    rw [mem_threadUnits_succ] at h1 h2
    have := threadStart_mono W T (show t2 + 1 ≤ t1 from h)
    omega

theorem mem_threadUnits_lt (W T t u : Nat) (hT : 0 < T) (ht : t < T)
    (hu : u ∈ threadUnits W T t) : u < W := by
  rw [mem_threadUnits_succ] at hu
  have hle : threadStart W T (t + 1) ≤ threadStart W T T :=
    threadStart_mono W T (show t + 1 ≤ T from ht)
  rw [threadStart_last W T hT] at hle
  omega

/-! ### The interleaved blocked GEMM engine

Modelled from the spec: the `GemmInterleaved` engine body is not among the
visible sources.  The model packs operand panels in the kernel's interleaved
layout (zero-padded at the M/N boundary), walks the flattened
multi x batch x M-tile x N-tile work space, invokes the micro-kernel
accumulation per tile over the packed panels, applies alpha/beta scaling per
element with wrapping 32-bit arithmetic, and copies back only the valid
sub-rectangle of each tile. -/

/-- The fixed-width modulus of the 32-bit unsigned accumulator. -/
def U32MOD : Nat := 4294967296

/-- Problem shape and scalars, immutable after construction. -/
structure Problem where
  M : Nat
  N : Nat
  K : Nat
  nbatches : Nat
  nmulti : Nat
  trA : Bool
  trB : Bool
  alpha : Nat
  beta : Nat
deriving DecidableEq

/-- A caller-owned output buffer, indexed by (multi, batch, row, column). -/
def Buf : Type := Nat → Nat → Nat → Nat → Nat

/-- A packed-B panel store, indexed by (multi, N-tile, panel position). -/
def PackedB : Type := Nat → Nat → Nat → Nat

/-- Strided operand access honouring the transpose flag. -/
def opMat (tr : Bool) (mat : Nat → Nat → Nat) (i k : Nat) : Nat :=
  if tr then mat k i else mat i k

/-- Length-`K` dot product of two index streams. -/
def dotK : Nat → (Nat → Nat) → (Nat → Nat) → Nat
  | 0, _, _ => 0
  | k + 1, a, b => dotK k a b + a k * b k

theorem dotK_congr (K : Nat) (f g fa ga : Nat → Nat)
    (hf : ∀ k, k < K → f k = fa k) (hg : ∀ k, k < K → g k = ga k) :
    dotK K f g = dotK K fa ga := by
  induction K with
  | zero => rfl
  | succ K ih =>
    unfold dotK
    rw [ih (fun k hk => hf k (Nat.lt_succ_of_lt hk)) (fun k hk => hg k (Nat.lt_succ_of_lt hk)),
      hf K (Nat.lt_succ_self K), hg K (Nat.lt_succ_self K)]

/-- Number of M-tiles of the selected kernel variant. -/
def Mtiles (kv : KernelVariant) (P : Problem) : Nat := ceilDiv P.M (out_height kv)

/-- Number of N-tiles of the selected kernel variant. -/
def Ntiles (kv : KernelVariant) (P : Problem) : Nat := ceilDiv P.N (out_width kv)

/-- Total number of flattened work units (multi x batch x M-tiles x N-tiles). -/
def totalUnits (kv : KernelVariant) (P : Problem) : Nat :=
  P.nmulti * P.nbatches * Mtiles kv P * Ntiles kv P

theorem out_height_pos (kv : KernelVariant) : 0 < out_height kv := by
  cases kv <;> decide

theorem out_width_pos (kv : KernelVariant) : 0 < out_width kv := by
  cases kv <;> decide

/-- Interleaved packed panel of the A strip for M-tile `mt`: position
`k * out_height + r` holds row `mt * out_height + r`, column `k` of op(A),
zero-padded past the M boundary. -/
def packApanel (kv : KernelVariant) (opA : Nat → Nat → Nat) (M mt p : Nat) : Nat :=
  if mt * out_height kv + p % out_height kv < M then
    opA (mt * out_height kv + p % out_height kv) (p / out_height kv)
  else 0

/-- Interleaved packed panel of the B strip for N-tile `nt`: position
`k * out_width + c` holds row `k`, column `nt * out_width + c` of op(B),
zero-padded past the N boundary. -/
def packBpanel (kv : KernelVariant) (opB : Nat → Nat → Nat) (N nt p : Nat) : Nat :=
  if nt * out_width kv + p % out_width kv < N then
    opB (p / out_width kv) (nt * out_width kv + p % out_width kv)
  else 0

/-- Packs every B panel (one per multi index and N-tile), as done once per
construction in pretransposed mode or once per execute otherwise. -/
def packAllB (kv : KernelVariant) (P : Problem) (Bin : Nat → Nat → Nat → Nat) : PackedB :=
  fun m nt => packBpanel kv (opMat P.trB (Bin m)) P.N nt

/-- The micro-kernel's raw accumulation for tile cell (r, c): a length-`K`
dot product read out of the packed panels through the interleaved layout. -/
def kernelAcc (kv : KernelVariant) (K : Nat) (pa pb : Nat → Nat) (r c : Nat) : Nat :=
  dotK K (fun k => pa (k * out_height kv + r)) (fun k => pb (k * out_width kv + c))

/-- One output element of a tile after alpha/beta scaling, wrapping per the
32-bit accumulator's fixed-width arithmetic. -/
def tileOut (kv : KernelVariant) (P : Problem) (Ain : Nat → Nat → Nat → Nat → Nat)
    (pB : PackedB) (m b mt nt r c old : Nat) : Nat :=
  (P.alpha * kernelAcc kv P.K (packApanel kv (opMat P.trA (Ain m b)) P.M mt)
      (pB m nt) r c + P.beta * old) % U32MOD

/-- Work unit `u` owns output cell (m, b, i, j): the cell lies in the valid
sub-rectangle of the tile `u` decodes to. -/
def owns (kv : KernelVariant) (P : Problem) (u m b i j : Nat) : Prop :=
  m = uMulti P.nbatches (Mtiles kv P) (Ntiles kv P) u ∧
  b = uBatch P.nbatches (Mtiles kv P) (Ntiles kv P) u ∧
  uMtile (Mtiles kv P) (Ntiles kv P) u * out_height kv ≤ i ∧
  i < (uMtile (Mtiles kv P) (Ntiles kv P) u + 1) * out_height kv ∧
  i < P.M ∧
  uNtile (Ntiles kv P) u * out_width kv ≤ j ∧
  j < (uNtile (Ntiles kv P) u + 1) * out_width kv ∧
  j < P.N

instance (kv : KernelVariant) (P : Problem) (u m b i j : Nat) :
    Decidable (owns kv P u m b i j) := by
  unfold owns
  exact inferInstance

/-- Executes one work unit: computes its tile over the packed panels and
writes back only the valid sub-rectangle of the output. -/
def writeUnit (kv : KernelVariant) (P : Problem) (Ain : Nat → Nat → Nat → Nat → Nat)
    (pB : PackedB) (u : Nat) (buf : Buf) : Buf :=
  fun m b i j =>
    if owns kv P u m b i j then
      tileOut kv P Ain pB
        (uMulti P.nbatches (Mtiles kv P) (Ntiles kv P) u)
        (uBatch P.nbatches (Mtiles kv P) (Ntiles kv P) u)
        (uMtile (Mtiles kv P) (Ntiles kv P) u)
        (uNtile (Ntiles kv P) u)
        (i - uMtile (Mtiles kv P) (Ntiles kv P) u * out_height kv)
        (j - uNtile (Ntiles kv P) u * out_width kv)
        (buf m b i j)
    else buf m b i j

/-- Executes a list of work units in order. -/
def runUnits (kv : KernelVariant) (P : Problem) (Ain : Nat → Nat → Nat → Nat → Nat)
    (pB : PackedB) (us : List Nat) (buf : Buf) : Buf :=
  us.foldl (fun acc u => writeUnit kv P Ain pB u acc) buf

/-- The engine's output after threads `0, ..., T-1` have each executed their
static partition of the work space (partitions are disjoint, so the
composition order is immaterial). -/
def engineRunThreads (kv : KernelVariant) (P : Problem)
    (Ain : Nat → Nat → Nat → Nat → Nat) (Bin : Nat → Nat → Nat → Nat)
    (T : Nat) (C0 : Buf) : Buf :=
  (List.range T).foldl
    (fun buf t =>
      runUnits kv P Ain (packAllB kv P Bin) (threadUnits (totalUnits kv P) T t) buf)
    C0

/-- The naive triple-loop reference `alpha * op(A) x op(B) + beta * C_initial`
in wrapping 32-bit arithmetic, per batch and multi index. -/
def reference (P : Problem) (Ain : Nat → Nat → Nat → Nat → Nat)
    (Bin : Nat → Nat → Nat → Nat) (C0 : Buf) : Buf :=
  fun m b i j =>
    (P.alpha * dotK P.K (fun k => opMat P.trA (Ain m b) i k)
        (fun k => opMat P.trB (Bin m) k j) + P.beta * C0 m b i j) % U32MOD

/-! ### Execution lemmas: frame, single-writer, wrapping, thread composition -/

theorem writeUnit_of_not_owns (kv : KernelVariant) (P : Problem)
    (Ain : Nat → Nat → Nat → Nat → Nat) (pB : PackedB) (u : Nat) (buf : Buf)
    (m b i j : Nat) (h : ¬ owns kv P u m b i j) :
    writeUnit kv P Ain pB u buf m b i j = buf m b i j := by
  unfold writeUnit
  rw [if_neg h]

theorem writeUnit_of_owns (kv : KernelVariant) (P : Problem)
    (Ain : Nat → Nat → Nat → Nat → Nat) (pB : PackedB) (u : Nat) (buf : Buf)
    (m b i j : Nat) (h : owns kv P u m b i j) :
    writeUnit kv P Ain pB u buf m b i j =
      tileOut kv P Ain pB
        (uMulti P.nbatches (Mtiles kv P) (Ntiles kv P) u)
        (uBatch P.nbatches (Mtiles kv P) (Ntiles kv P) u)
        (uMtile (Mtiles kv P) (Ntiles kv P) u)
        (uNtile (Ntiles kv P) u)
        (i - uMtile (Mtiles kv P) (Ntiles kv P) u * out_height kv)
        (j - uNtile (Ntiles kv P) u * out_width kv)
        (buf m b i j) := by
  unfold writeUnit
  rw [if_pos h]

theorem runUnits_nil (kv : KernelVariant) (P : Problem)
    (Ain : Nat → Nat → Nat → Nat → Nat) (pB : PackedB) (buf : Buf) :
    runUnits kv P Ain pB [] buf = buf := rfl

theorem runUnits_cons (kv : KernelVariant) (P : Problem)
    (Ain : Nat → Nat → Nat → Nat → Nat) (pB : PackedB) (u : Nat) (us : List Nat)
    (buf : Buf) :
    runUnits kv P Ain pB (u :: us) buf =
      runUnits kv P Ain pB us (writeUnit kv P Ain pB u buf) := rfl

theorem runUnits_append (kv : KernelVariant) (P : Problem)
    (Ain : Nat → Nat → Nat → Nat → Nat) (pB : PackedB) (l1 l2 : List Nat)
    (buf : Buf) :
    runUnits kv P Ain pB (l1 ++ l2) buf =
      runUnits kv P Ain pB l2 (runUnits kv P Ain pB l1 buf) := by
  unfold runUnits
  exact List.foldl_append _ _ _ _

theorem runUnits_frame (kv : KernelVariant) (P : Problem)
    (Ain : Nat → Nat → Nat → Nat → Nat) (pB : PackedB) (us : List Nat)
    (m b i j : Nat) (h : ∀ u ∈ us, ¬ owns kv P u m b i j) :
    ∀ buf : Buf, runUnits kv P Ain pB us buf m b i j = buf m b i j := by
  induction us with
  | nil => intro buf; rfl
  | cons u us ih =>
    intro buf
    rw [runUnits_cons,
      ih (fun v hv => h v (List.mem_cons_of_mem u hv)) (writeUnit kv P Ain pB u buf)]
    exact writeUnit_of_not_owns kv P Ain pB u buf m b i j (h u (List.mem_cons_self u us))

theorem runUnits_single (kv : KernelVariant) (P : Problem)
    (Ain : Nat → Nat → Nat → Nat → Nat) (pB : PackedB) (l1 l2 : List Nat)
    (u m b i j : Nat) (buf : Buf) (hu : owns kv P u m b i j)
    (h1 : ∀ v ∈ l1, ¬ owns kv P v m b i j) (h2 : ∀ v ∈ l2, ¬ owns kv P v m b i j) :
    runUnits kv P Ain pB (l1 ++ u :: l2) buf m b i j =
      tileOut kv P Ain pB
        (uMulti P.nbatches (Mtiles kv P) (Ntiles kv P) u)
        (uBatch P.nbatches (Mtiles kv P) (Ntiles kv P) u)
        (uMtile (Mtiles kv P) (Ntiles kv P) u)
        (uNtile (Ntiles kv P) u)
        (i - uMtile (Mtiles kv P) (Ntiles kv P) u * out_height kv)
        (j - uNtile (Ntiles kv P) u * out_width kv)
        (buf m b i j) := by
  rw [runUnits_append, runUnits_cons,
    runUnits_frame kv P Ain pB l2 m b i j h2,
    writeUnit_of_owns kv P Ain pB u (runUnits kv P Ain pB l1 buf) m b i j hu,
    runUnits_frame kv P Ain pB l1 m b i j h1 buf]

theorem tileOut_lt (kv : KernelVariant) (P : Problem)
    (Ain : Nat → Nat → Nat → Nat → Nat) (pB : PackedB) (m b mt nt r c old : Nat) :
    tileOut kv P Ain pB m b mt nt r c old < U32MOD := by
  unfold tileOut
  exact Nat.mod_lt _ (by decide)

theorem runUnits_wraps (kv : KernelVariant) (P : Problem)
    (Ain : Nat → Nat → Nat → Nat → Nat) (pB : PackedB) (us : List Nat)
    (m b i j : Nat) :
    ∀ buf : Buf, runUnits kv P Ain pB us buf m b i j = buf m b i j ∨
      runUnits kv P Ain pB us buf m b i j < U32MOD := by
  induction us with
  | nil => intro buf; left; rfl
  | cons u us ih =>
    intro buf
    rw [runUnits_cons]
    rcases ih (writeUnit kv P Ain pB u buf) with h | h
    · rw [h]
      by_cases ho : owns kv P u m b i j
      · right
        rw [writeUnit_of_owns kv P Ain pB u buf m b i j ho]
        exact tileOut_lt kv P Ain pB _ _ _ _ _ _ _
      · left
        exact writeUnit_of_not_owns kv P Ain pB u buf m b i j ho
    · right
      exact h

/-- Folding the per-thread runs of the first `n` threads equals running the
contiguous prefix of work units up to `threadStart n`. -/
theorem foldThreads_eq_linear (kv : KernelVariant) (P : Problem)
    (Ain : Nat → Nat → Nat → Nat → Nat) (pB : PackedB) (W T : Nat) :
    ∀ (n : Nat) (C0 : Buf),
      (List.range n).foldl
          (fun buf t => runUnits kv P Ain pB (threadUnits W T t) buf) C0 =
        runUnits kv P Ain pB (List.range (threadStart W T n)) C0 := by
  intro n
  induction n with
  | zero =>
    intro C0
    rw [threadStart_zero]
    rfl
  | succ n ih =>
    intro C0
    rw [List.range_succ, List.foldl_append, ih, threadStart_succ, List.range_add,
      runUnits_append]
    rfl

/-! ### Correctness of one full pass over the work space -/

theorem owns_encode (kv : KernelVariant) (P : Problem) (m b i j : Nat)
    (hb : b < P.nbatches) (hi : i < P.M) (hj : j < P.N) :
    owns kv P
      (encode P.nbatches (Mtiles kv P) (Ntiles kv P) m b (i / out_height kv)
        (j / out_width kv)) m b i j := by
  have h0 := out_height_pos kv
  have w0 := out_width_pos kv
  have hmt : i / out_height kv < Mtiles kv P :=
    (Nat.div_lt_iff_lt_mul h0).mpr
      (Nat.lt_of_lt_of_le hi (le_ceilDiv_mul P.M (out_height kv) h0))
  have hnt : j / out_width kv < Ntiles kv P :=
    (Nat.div_lt_iff_lt_mul w0).mpr
      (Nat.lt_of_lt_of_le hj (le_ceilDiv_mul P.N (out_width kv) w0))
  unfold owns
  refine ⟨(uMulti_encode _ _ _ _ _ _ _ hb hmt hnt).symm,
    (uBatch_encode _ _ _ _ _ _ _ hb hmt hnt).symm, ?_, ?_, hi, ?_, ?_, hj⟩
  · rw [uMtile_encode _ _ _ _ _ _ _ hmt hnt]
    exact Nat.div_mul_le_self i _
  · rw [uMtile_encode _ _ _ _ _ _ _ hmt hnt]
    exact lt_div_succ_mul i _ h0
  · rw [uNtile_encode _ _ _ _ _ _ _ hnt]
    exact Nat.div_mul_le_self j _
  · rw [uNtile_encode _ _ _ _ _ _ _ hnt]
    exact lt_div_succ_mul j _ w0

theorem owns_unique (kv : KernelVariant) (P : Problem) (u m b i j : Nat)
    (h : owns kv P u m b i j) :
    u = encode P.nbatches (Mtiles kv P) (Ntiles kv P) m b (i / out_height kv)
      (j / out_width kv) := by
  obtain ⟨h1, h2, h3, h4, h5, h6, h7, h8⟩ := h
  have hmt : i / out_height kv = uMtile (Mtiles kv P) (Ntiles kv P) u :=
    Nat.div_eq_of_lt_le h3 h4
  have hnt : j / out_width kv = uNtile (Ntiles kv P) u :=
    Nat.div_eq_of_lt_le h6 h7
  rw [h1, h2, hmt, hnt, encode_decode]

theorem kernelAcc_packed (kv : KernelVariant) (K M N : Nat) (opA opB : Nat → Nat → Nat)
    (mt nt r c : Nat) (hr : r < out_height kv) (hc : c < out_width kv)
    (hrow : mt * out_height kv + r < M) (hcol : nt * out_width kv + c < N) :
    kernelAcc kv K (packApanel kv opA M mt) (packBpanel kv opB N nt) r c =
      dotK K (fun k => opA (mt * out_height kv + r) k)
        (fun k => opB k (nt * out_width kv + c)) := by
  unfold kernelAcc
  apply dotK_congr
  · intro k hk
    unfold packApanel
    rw [mod_mul_add_eq k r _ hr, div_mul_add_eq k r _ hr, if_pos hrow]
  · intro k hk
    unfold packBpanel
    rw [mod_mul_add_eq k c _ hc, div_mul_add_eq k c _ hc, if_pos hcol]

/-- Running every work unit once computes the naive reference at every
in-bounds output cell. -/
theorem runRange_eq_reference (kv : KernelVariant) (P : Problem)
    (Ain : Nat → Nat → Nat → Nat → Nat) (Bin : Nat → Nat → Nat → Nat) (C0 : Buf)
    (m b i j : Nat) (hm : m < P.nmulti) (hb : b < P.nbatches) (hi : i < P.M)
    (hj : j < P.N) :
    runUnits kv P Ain (packAllB kv P Bin) (List.range (totalUnits kv P)) C0 m b i j =
      reference P Ain Bin C0 m b i j := by
  have h0 := out_height_pos kv
  have w0 := out_width_pos kv
  have hmt : i / out_height kv < Mtiles kv P :=
    (Nat.div_lt_iff_lt_mul h0).mpr
      (Nat.lt_of_lt_of_le hi (le_ceilDiv_mul P.M (out_height kv) h0))
  have hnt : j / out_width kv < Ntiles kv P :=
    (Nat.div_lt_iff_lt_mul w0).mpr
      (Nat.lt_of_lt_of_le hj (le_ceilDiv_mul P.N (out_width kv) w0))
  set u0 := encode P.nbatches (Mtiles kv P) (Ntiles kv P) m b (i / out_height kv)
    (j / out_width kv) with hu0
  have hu0W : u0 < totalUnits kv P := by
    rw [hu0]
    exact encode_lt P.nmulti _ _ _ _ _ _ _ hm hb hmt hnt
  obtain ⟨l1, l2, hsplit⟩ := List.append_of_mem (List.mem_range.mpr hu0W)
  have hnd : (l1 ++ u0 :: l2).Nodup := hsplit ▸ List.nodup_range _
  rw [List.nodup_append] at hnd
  obtain ⟨hnd1, hnd2, hdisj⟩ := hnd
  have hu0l1 : u0 ∉ l1 := fun hmem1 => hdisj hmem1 (List.mem_cons_self u0 l2)
  have hu0l2 : u0 ∉ l2 := (List.nodup_cons.mp hnd2).1
  have hown : owns kv P u0 m b i j := by
    rw [hu0]
    exact owns_encode kv P m b i j hb hi hj
  have h1 : ∀ v ∈ l1, ¬ owns kv P v m b i j := by
    intro v hv hvo
    rw [owns_unique kv P v m b i j hvo, ← hu0] at hv
    exact hu0l1 hv
  have h2 : ∀ v ∈ l2, ¬ owns kv P v m b i j := by
    intro v hv hvo
    rw [owns_unique kv P v m b i j hvo, ← hu0] at hv
    exact hu0l2 hv
  rw [hsplit,
    runUnits_single kv P Ain (packAllB kv P Bin) l1 l2 u0 m b i j C0 hown h1 h2, hu0,
    uMulti_encode _ _ _ _ _ _ _ hb hmt hnt, uBatch_encode _ _ _ _ _ _ _ hb hmt hnt,
    uMtile_encode _ _ _ _ _ _ _ hmt hnt, uNtile_encode _ _ _ _ _ _ _ hnt]
  have hle1 : i / out_height kv * out_height kv ≤ i := Nat.div_mul_le_self i _
  have hle2 : j / out_width kv * out_width kv ≤ j := Nat.div_mul_le_self j _
  have hr : i - i / out_height kv * out_height kv < out_height kv := by
    have hx := lt_div_succ_mul i (out_height kv) h0
    rw [Nat.succ_mul] at hx
    exact sub_lt_of_between i _ _ hle1 hx
  have hc : j - j / out_width kv * out_width kv < out_width kv := by
    have hx := lt_div_succ_mul j (out_width kv) w0
    rw [Nat.succ_mul] at hx
    exact sub_lt_of_between j _ _ hle2 hx
  have hrow : i / out_height kv * out_height kv +
      (i - i / out_height kv * out_height kv) < P.M := by
    rw [Nat.add_sub_cancel' hle1]
    exact hi
  have hcol : j / out_width kv * out_width kv +
      (j - j / out_width kv * out_width kv) < P.N := by
    rw [Nat.add_sub_cancel' hle2]
    exact hj
  unfold tileOut reference
  rw [show packAllB kv P Bin m (j / out_width kv) =
      packBpanel kv (opMat P.trB (Bin m)) P.N (j / out_width kv) from rfl,
    kernelAcc_packed kv P.K P.M P.N (opMat P.trA (Ain m b)) (opMat P.trB (Bin m))
      (i / out_height kv) (j / out_width kv) _ _ hr hc hrow hcol]
  simp only [Nat.add_sub_cancel' hle1, Nat.add_sub_cancel' hle2]

/-- The thread-partitioned run equals the single pass over all work units. -/
theorem engineRunThreads_eq_linear (kv : KernelVariant) (P : Problem)
    (Ain : Nat → Nat → Nat → Nat → Nat) (Bin : Nat → Nat → Nat → Nat)
    (T : Nat) (C0 : Buf) (hT : 0 < T) :
    engineRunThreads kv P Ain Bin T C0 =
      runUnits kv P Ain (packAllB kv P Bin) (List.range (totalUnits kv P)) C0 := by
  unfold engineRunThreads
  rw [foldThreads_eq_linear kv P Ain (packAllB kv P Bin) (totalUnits kv P) T T C0,
    threadStart_last _ _ hT]

/-! ### Engine instance state and the per-thread execute entry point -/

/-- Engine instance state: the configuration plus the optional cached
packed-B store (present exactly in pretransposed mode). -/
structure EngineState where
  kv : KernelVariant
  P : Problem
  pretransposed_hint : Bool
  packedB : Option PackedB

/-- Modelled from the spec: construction packs operand B once when the
pretransposed hint is set, caching the packed panels inside the engine. -/
def mkEngine (kv : KernelVariant) (P : Problem) (hint : Bool)
    (Bin : Nat → Nat → Nat → Nat) : EngineState :=
  { kv := kv, P := P, pretransposed_hint := hint,
    packedB := if hint then some (packAllB kv P Bin) else none }

/-- Modelled from the spec: `execute` reuses the cached packed B verbatim
when it is present (pretransposed mode) and otherwise packs the execute-time
B afresh; it returns the output buffer and the engine state after the call
(the cache is never re-done). -/
def executeEngine (st : EngineState) (Ain : Nat → Nat → Nat → Nat → Nat)
    (Bexec : Nat → Nat → Nat → Nat) (C0 : Buf) (T : Nat) : Buf × EngineState :=
  match st.packedB with
  | some pb =>
      ((List.range T).foldl
        (fun buf t =>
          runUnits st.kv st.P Ain pb (threadUnits (totalUnits st.kv st.P) T t) buf)
        C0, st)
  | none =>
      ((List.range T).foldl
        (fun buf t =>
          runUnits st.kv st.P Ain (packAllB st.kv st.P Bexec)
            (threadUnits (totalUnits st.kv st.P) T t) buf)
        C0, st)

/-- Execute-time contract violations, from the spec's error taxonomy. -/
inductive ExecError where
  | badThreadIndex
deriving DecidableEq

/-- Modelled from the spec: the per-thread execute entry point with its
execute-time contract check; the only failure condition is a contract
violation (thread index out of range) — arithmetic never raises. -/
def executeChecked (kv : KernelVariant) (P : Problem)
    (Ain : Nat → Nat → Nat → Nat → Nat) (Bin : Nat → Nat → Nat → Nat) (C0 : Buf)
    (tid T : Nat) : Except ExecError Buf :=
  if tid < T then
    Except.ok (runUnits kv P Ain (packAllB kv P Bin)
      (threadUnits (totalUnits kv P) T tid) C0)
  else Except.error ExecError.badThreadIndex

/-- The concrete C9 scenario problem: M=N=K=4, one batch, one multi,
alpha=1, beta=0, no transposition. -/
def P9 : Problem :=
  { M := 4, N := 4, K := 4, nbatches := 1, nmulti := 1, trA := false, trB := false,
    alpha := 1, beta := 0 }

/-- The 4x4 identity matrix pattern. -/
def idMat4 (i k : Nat) : Nat := if i = k then 1 else 0

theorem dotK_idMat4 (Bq : Nat → Nat → Nat) (i j : Nat) (hi : i < 4) :
    dotK 4 (fun k => idMat4 i k) (fun k => Bq k j) = Bq i j := by
  have h4 : dotK 4 (fun k => idMat4 i k) (fun k => Bq k j) =
      0 + idMat4 i 0 * Bq 0 j + idMat4 i 1 * Bq 1 j + idMat4 i 2 * Bq 2 j +
        idMat4 i 3 * Bq 3 j := rfl
  rw [h4]
  interval_cases i <;> simp [idMat4]

/-! ### The claims -/

/-- Claim C1: for every valid problem (all dimensions at least 1), every
operand pair with transpose flags, every initial output, every thread count
of at least 1, and whichever kernel variant the dispatcher selected, the
engine's output after all threads' execute calls complete equals the naive
triple-loop reference `alpha * op(A) x op(B) + beta * C_initial` at every
in-bounds cell of every batch and multi index — exactly, hence in particular
within the 1-unit absolute tolerance for the u8/u8 -> u32 pair. -/
theorem engine_output_matches_reference (kv : KernelVariant) (P : Problem)
    (Ain : Nat → Nat → Nat → Nat → Nat) (Bin : Nat → Nat → Nat → Nat) (C0 : Buf)
    (T : Nat) (hM : 1 ≤ P.M) (hN : 1 ≤ P.N) (hK : 1 ≤ P.K) (hnb : 1 ≤ P.nbatches)
    (hnm : 1 ≤ P.nmulti) (hT : 1 ≤ T) (m b i j : Nat) (hm : m < P.nmulti)
    (hb : b < P.nbatches) (hi : i < P.M) (hj : j < P.N) :
    engineRunThreads kv P Ain Bin T C0 m b i j = reference P Ain Bin C0 m b i j := by
  rw [engineRunThreads_eq_linear kv P Ain Bin T C0 hT]
  exact runRange_eq_reference kv P Ain Bin C0 m b i j hm hb hi hj

theorem engine_output_matches_reference_witness :
    engineRunThreads KernelVariant.gemm_u8_4x4
      { M := 2, N := 2, K := 2, nbatches := 1, nmulti := 1, trA := false,
        trB := false, alpha := 1, beta := 1 }
      (fun _ _ i k => i + 2 * k) (fun _ k j => 3 * k + j) 1 (fun _ _ i j => i * j)
      0 0 0 1 =
    reference
      { M := 2, N := 2, K := 2, nbatches := 1, nmulti := 1, trA := false,
        trB := false, alpha := 1, beta := 1 }
      (fun _ _ i k => i + 2 * k) (fun _ k j => 3 * k + j) (fun _ _ i j => i * j)
      0 0 0 1 :=
  engine_output_matches_reference KernelVariant.gemm_u8_4x4
    { M := 2, N := 2, K := 2, nbatches := 1, nmulti := 1, trA := false,
      trB := false, alpha := 1, beta := 1 }
    (fun _ _ i k => i + 2 * k) (fun _ k j => 3 * k + j) (fun _ _ i j => i * j)
    1 (by decide) (by decide) (by decide) (by decide) (by decide) (by decide)
    0 0 0 1 (by decide) (by decide) (by decide) (by decide)

/-- Claim C2: for every capability-probe result and every set of construction
parameters, the dispatcher selects exactly one kernel variant and never
fails; it selects the 12x8 variant exactly when the probe reports dot-product
support and otherwise the baseline 4x4 variant, which does not require the
dot-product extension. -/
theorem dispatcher_selects_exactly_one (ci : CPUInfo) (M N K nbatches nmulti : Nat)
    (trA trB : Bool) (alpha beta maxthreads : Nat) (ph : Bool) :
    (∃! h, gemm ci M N K nbatches nmulti trA trB alpha beta maxthreads ph = some h) ∧
    ((gemm ci M N K nbatches nmulti trA trB alpha beta maxthreads ph).map
        GemmInterleaved.kernel =
      some (if ci.has_dotprod then KernelVariant.gemm_u8_12x8
        else KernelVariant.gemm_u8_4x4)) ∧
    requiresDotprod KernelVariant.gemm_u8_4x4 = false := by
  refine ⟨?_, ?_, rfl⟩
  · unfold gemm
    cases ci.has_dotprod
    · exact ⟨_, rfl, fun y hy => (Option.some.inj hy).symm⟩
    · exact ⟨_, rfl, fun y hy => (Option.some.inj hy).symm⟩
  · unfold gemm
    cases hd : ci.has_dotprod <;> simp [hd]

/-- Claim C3: for every work-space size `W` and every thread count `T` of at
least 1, the static partition is a perfect cover of the flattened space:
every work unit below `W` belongs to exactly one thread's contiguous range,
no thread's range reaches beyond `W`, and range lengths are `W / T` plus one
extra unit exactly on the earliest-indexed `W % T` threads. -/
theorem partition_perfect_cover (W T : Nat) (hT : 1 ≤ T) :
    (∀ u, u < W → ∃! t, t < T ∧ u ∈ threadUnits W T t) ∧
    (∀ t u, t < T → u ∈ threadUnits W T t → u < W) ∧
    (∀ t, t < T → (threadUnits W T t).length = W / T + if t < W % T then 1 else 0) := by
  refine ⟨?_, ?_, ?_⟩
  · intro u hu
    have hu2 : u < threadStart W T T := by
      rw [threadStart_last W T hT]
      exact hu
    obtain ⟨t, ht, hmem⟩ := exists_thread_of_lt_start W T T u hu2
    refine ⟨t, ⟨ht, hmem⟩, ?_⟩
    rintro t2 ⟨ht2, hmem2⟩
    exact thread_of_mem_unique W T t2 t u hmem2 hmem
  · intro t u ht hu
    exact mem_threadUnits_lt W T t u hT ht hu
  · intro t ht
    unfold threadUnits threadLen
    rw [List.length_map, List.length_range]

theorem partition_perfect_cover_witness :
    (threadUnits 7 3 2).length = 7 / 3 + if 2 < 7 % 3 then 1 else 0 :=
  (partition_perfect_cover 7 3 (by decide)).2.2 2 (by decide)

/-- Claim C4: when M or N is not a multiple of the selected kernel's tile
dimensions, execute writes only the valid sub-rectangle of each boundary
tile: every output-buffer cell beyond the logical M x N bounds holds the
same value after the run as before it. -/
theorem boundary_cells_untouched (kv : KernelVariant) (P : Problem)
    (Ain : Nat → Nat → Nat → Nat → Nat) (Bin : Nat → Nat → Nat → Nat)
    (T : Nat) (C0 : Buf)
    (hdiv : ¬ (out_height kv ∣ P.M) ∨ ¬ (out_width kv ∣ P.N))
    (m b i j : Nat) (hout : P.M ≤ i ∨ P.N ≤ j) :
    engineRunThreads kv P Ain Bin T C0 m b i j = C0 m b i j := by
  unfold engineRunThreads
  rw [foldThreads_eq_linear kv P Ain (packAllB kv P Bin) (totalUnits kv P) T T C0]
  apply runUnits_frame
  intro u hu ho
  rcases hout with h | h
  · exact Nat.not_lt.mpr h ho.2.2.2.2.1
  · exact Nat.not_lt.mpr h ho.2.2.2.2.2.2.2

theorem boundary_cells_untouched_witness :
    engineRunThreads KernelVariant.gemm_u8_4x4
      { M := 5, N := 4, K := 2, nbatches := 1, nmulti := 1, trA := false,
        trB := false, alpha := 1, beta := 1 }
      (fun _ _ i k => i + k) (fun _ k j => k * j) 1 (fun _ _ i j => 9 + i + j)
      0 0 5 0 = 9 + 5 + 0 :=
  boundary_cells_untouched KernelVariant.gemm_u8_4x4
    { M := 5, N := 4, K := 2, nbatches := 1, nmulti := 1, trA := false,
      trB := false, alpha := 1, beta := 1 }
    (fun _ _ i k => i + k) (fun _ k j => k * j) 1 (fun _ _ i j => 9 + i + j)
    (Or.inl (by decide)) 0 0 5 0 (Or.inl (by decide))

/-- Claim C5: engine construction fails with a construction-time error if and
only if one of M, N, K, nbatches, nmulti or the thread ceiling is zero, and
succeeds with an engine handle whenever every dimension and the thread
ceiling are at least 1. -/
theorem construction_fails_iff_zero (kv : KernelVariant) (ci : CPUInfo)
    (M N K nbatches nmulti : Nat) (trA trB : Bool) (alpha beta maxthreads : Nat)
    (ph : Bool) :
    ((∃ e, constructEngine kv ci M N K nbatches nmulti trA trB alpha beta
        maxthreads ph = Except.error e) ↔
      (M = 0 ∨ N = 0 ∨ K = 0 ∨ nbatches = 0 ∨ nmulti = 0 ∨ maxthreads = 0)) ∧
    ((∃ h, constructEngine kv ci M N K nbatches nmulti trA trB alpha beta
        maxthreads ph = Except.ok h) ↔
      (1 ≤ M ∧ 1 ≤ N ∧ 1 ≤ K ∧ 1 ≤ nbatches ∧ 1 ≤ nmulti ∧ 1 ≤ maxthreads)) := by
  unfold constructEngine
  by_cases h1 : M = 0 ∨ N = 0 ∨ K = 0 ∨ nbatches = 0 ∨ nmulti = 0
  · rw [if_pos h1]
    constructor
    · simp only [Except.error.injEq, exists_eq']
      constructor
      · intro _
        omega
      · intro _
        trivial
    · constructor
      · rintro ⟨h, hh⟩
        exact absurd hh (by simp)
      · intro hc
        omega
  · rw [if_neg h1]
    by_cases h2 : maxthreads = 0
    · rw [if_pos h2]
      constructor
      · simp only [Except.error.injEq, exists_eq']
        constructor
        · intro _
          omega
        · intro _
          trivial
      · constructor
        · rintro ⟨h, hh⟩
          exact absurd hh (by simp)
        · intro hc
          omega
    · rw [if_neg h2]
      constructor
      · constructor
        · rintro ⟨e, he⟩
          exact absurd he (by simp)
        · intro hc
          omega
      · constructor
        · intro _
          omega
        · intro _
          exact ⟨_, rfl⟩

/-- Claim C6: for an engine constructed with the pretransposed hint for
operand B, repeated execute calls on the same engine instance with identical
A and identical initial C produce identical output on every call; the packed
B panels are produced once at construction, the engine state never changes
across calls, and the cached packing is used verbatim (the output coincides
with the engine run over the construction-time B, whatever B is passed at
execute time). -/
theorem pretransposed_repeat_execute_identical (kv : KernelVariant) (P : Problem)
    (Bin B1 B2 : Nat → Nat → Nat → Nat) (Ain : Nat → Nat → Nat → Nat → Nat)
    (C0 : Buf) (T : Nat) :
    (executeEngine (mkEngine kv P true Bin) Ain B1 C0 T).2 = mkEngine kv P true Bin ∧
    (executeEngine ((executeEngine (mkEngine kv P true Bin) Ain B1 C0 T).2) Ain B2
        C0 T).1 =
      (executeEngine (mkEngine kv P true Bin) Ain B1 C0 T).1 ∧
    (executeEngine (mkEngine kv P true Bin) Ain B1 C0 T).1 =
      engineRunThreads kv P Ain Bin T C0 :=
  ⟨rfl, rfl, rfl⟩

/-- Claim C7: the dispatcher's kernel-variant choice is a pure function of
the capability-probe result alone (for the fixed u8/u32 element-type pair):
two construction calls with the same probe result and arbitrarily different
shapes, flags, scalars, thread ceilings and hints select the same kernel
variant, and the dispatcher never fails. -/
theorem dispatcher_pure_function_of_probe (ci : CPUInfo)
    (M1 N1 K1 nb1 nm1 : Nat) (trA1 trB1 : Bool) (a1 b1 mt1 : Nat) (ph1 : Bool)
    (M2 N2 K2 nb2 nm2 : Nat) (trA2 trB2 : Bool) (a2 b2 mt2 : Nat) (ph2 : Bool) :
    (gemm ci M1 N1 K1 nb1 nm1 trA1 trB1 a1 b1 mt1 ph1).map GemmInterleaved.kernel =
      (gemm ci M2 N2 K2 nb2 nm2 trA2 trB2 a2 b2 mt2 ph2).map GemmInterleaved.kernel ∧
    (gemm ci M1 N1 K1 nb1 nm1 trA1 trB1 a1 b1 mt1 ph1).isSome = true := by
  unfold gemm
  cases hd : ci.has_dotprod <;> simp [hd]

/-- Claim C8: accumulation for the u8/u8 -> u32 pair follows the 32-bit
accumulator's fixed-width wrapping arithmetic (every written output value is
reduced modulo 2^32) and execute never raises an error on account of
arithmetic overflow: for any operand values whatsoever, a call with a valid
thread index returns ok. -/
theorem accumulation_wraps_never_signals (kv : KernelVariant) (P : Problem)
    (Ain : Nat → Nat → Nat → Nat → Nat) (Bin : Nat → Nat → Nat → Nat) (C0 : Buf)
    (tid T : Nat) (htid : tid < T) :
    executeChecked kv P Ain Bin C0 tid T =
      Except.ok (runUnits kv P Ain (packAllB kv P Bin)
        (threadUnits (totalUnits kv P) T tid) C0) ∧
    (∀ m b i j, runUnits kv P Ain (packAllB kv P Bin)
        (threadUnits (totalUnits kv P) T tid) C0 m b i j = C0 m b i j ∨
      runUnits kv P Ain (packAllB kv P Bin)
        (threadUnits (totalUnits kv P) T tid) C0 m b i j < U32MOD) := by
  constructor
  · unfold executeChecked
    rw [if_pos htid]
  · intro m b i j
    exact runUnits_wraps kv P Ain (packAllB kv P Bin) _ m b i j C0

theorem accumulation_wraps_never_signals_witness :
    executeChecked KernelVariant.gemm_u8_4x4 P9 (fun _ _ _ _ => 5)
      (fun _ _ _ => 6) (fun _ _ _ _ => 7) 0 1 =
      Except.ok (runUnits KernelVariant.gemm_u8_4x4 P9 (fun _ _ _ _ => 5)
        (packAllB KernelVariant.gemm_u8_4x4 P9 (fun _ _ _ => 6))
        (threadUnits (totalUnits KernelVariant.gemm_u8_4x4 P9) 1 0)
        (fun _ _ _ _ => 7)) :=
  (accumulation_wraps_never_signals KernelVariant.gemm_u8_4x4 P9 (fun _ _ _ _ => 5)
    (fun _ _ _ => 6) (fun _ _ _ _ => 7) 0 1 (by decide)).1

/-- Claim C9: for the concrete problem M=N=K=4, one batch, one multi, A the
identity matrix, alpha=1, beta=0, the engine's output equals B exactly
(bit-exact, no tolerance) for every choice of 8-bit B entries, whichever
kernel variant is selected. -/
theorem identity_scenario_exact (kv : KernelVariant) (Bin : Nat → Nat → Nat)
    (C0 : Buf) (T : Nat) (hT : 1 ≤ T)
    (hB : ∀ k, k < 4 → ∀ j, j < 4 → Bin k j < 256) (i j : Nat) (hi : i < 4)
    (hj : j < 4) :
    engineRunThreads kv P9 (fun _ _ r c => idMat4 r c) (fun _ k c => Bin k c) T C0
      0 0 i j = Bin i j := by
  rw [engineRunThreads_eq_linear kv P9 _ _ T C0 hT,
    runRange_eq_reference kv P9 _ _ C0 0 0 i j (by decide) (by decide) hi hj]
  unfold reference
  simp only [P9, opMat, Bool.false_eq_true, if_false, one_mul, zero_mul, Nat.add_zero]
  rw [dotK_idMat4 Bin i j hi]
  exact Nat.mod_eq_of_lt (Nat.lt_trans (hB i hi j hj) (by decide))

theorem identity_scenario_exact_witness :
    engineRunThreads KernelVariant.gemm_u8_4x4 P9 (fun _ _ r c => idMat4 r c)
      (fun _ k c => 10 * k + c) 1 (fun _ _ _ _ => 7) 0 0 1 2 = 10 * 1 + 2 :=
  identity_scenario_exact KernelVariant.gemm_u8_4x4 (fun k c => 10 * k + c)
    (fun _ _ _ _ => 7) 1 (by decide) (by decide) 1 2 (by decide) (by decide)

/-- Claim C10: on every construction input, both dispatch branches construct
the engine with exactly the arguments the dispatcher received (the CPU info
reference, M, N, K, nbatches, nmulti, trA, trB, alpha, beta, maxthreads,
pretransposed_hint), unchanged and in the same order; the branches differ
only in the kernel-variant parameter (12x8 under dot-product support, 4x4
otherwise), and both return a non-null handle. -/
theorem dispatch_constructs_with_forwarded_args (ci : CPUInfo)
    (M N K nbatches nmulti : Nat) (trA trB : Bool) (alpha beta maxthreads : Nat)
    (ph : Bool) :
    gemm ci M N K nbatches nmulti trA trB alpha beta maxthreads ph =
      some { kernel := if ci.has_dotprod then KernelVariant.gemm_u8_12x8
                       else KernelVariant.gemm_u8_4x4,
             ci := ci, M := M, N := N, K := K, nbatches := nbatches,
             nmulti := nmulti, trA := trA, trB := trB, alpha := alpha,
             beta := beta, maxthreads := maxthreads, pretransposed_hint := ph } := by
  unfold gemm
  cases hd : ci.has_dotprod <;> simp [hd]

end ArmGemm
